import Mathlib

/-!
Shallow embedding of the path-prettification algorithm of `line.go`
(`compressWithTruncator` and `prettifyPath`) together with the parts of the
Go standard library the code calls (`path.Clean`, `path.Join`,
`filepath.Abs`, `strings.Split`, `strings.HasPrefix`).

A Go string is modelled as its list of Unicode scalar values (`List Char`).
The byte-level behaviour of the source (`len(s)` byte lengths, byte offsets
produced by `for i, ch := range s`) is recovered through `Char.utf8Size`.
Ambient process state read by the code is passed explicitly: the `HOME`
environment value (empty list models an unset variable, exactly like Go's
`os.Getenv` returning `""`) and the working directory consulted by
`filepath.Abs` (`none` models a failing `os.Getwd`).

The float arithmetic in `compressWithTruncator` (`int(middle -
reduction/2)` and `int(startIExact + reduction)` on `float64`) is exact for
all lengths below 2^51, because every intermediate value is a multiple of
1/2 that is exactly representable; for `0 ≤ maxLen < lenS` it evaluates to
`startI = maxLen / 2` (floor) and `endI = startI + reduction`, then the
source clamps `endI` to `lenS`.  The model uses that exact integer form.
-/

/-- Go string, modelled as its sequence of Unicode scalar values. -/
abbrev GoStr := List Char

/-- Model of Go `len(s)` on a string: the UTF-8 byte length. -/
def byteLen (s : GoStr) : Nat := (s.map Char.utf8Size).sum

/-- Boolean test that every scalar of the string occupies a single UTF-8
byte, i.e. the string is pure ASCII. -/
def allAscii (s : GoStr) : Bool := s.all (fun c => c.utf8Size == 1)

/-- Constant `segmentTruncator` from `prettifyPath` in `line.go`. -/
def segTruncator : Char := '…'

/-- Reconstruction loop of `compressWithTruncator` (`line.go` lines
155-167): `for i, ch := range s` walks scalars with `i` the UTF-8 *byte*
offset of `ch`, keeps `ch` while `i < startI`, emits the truncator once at
the first position with `i ≥ startI`, afterwards keeps exactly the scalars
with byte offset `i > endI`. -/
def compressCore (truncator : Char) (startI endI : Nat) :
    GoStr → Nat → Bool → GoStr
  | [], _, _ => []
  | c :: rest, i, truncated =>
    if i < startI then
      c :: compressCore truncator startI endI rest (i + c.utf8Size) truncated
    else if truncated = false then
      truncator :: compressCore truncator startI endI rest (i + c.utf8Size) true
    else if endI < i then
      c :: compressCore truncator startI endI rest (i + c.utf8Size) truncated
    else
      compressCore truncator startI endI rest (i + c.utf8Size) truncated

/-- Model of `compressWithTruncator` (`line.go` lines 126-170).  `lenS` and
`maxLen` count scalars (`utf8.RuneCountInString`); the cut indices come
from the (exact) float computation, and the reconstruction loop compares
them against byte offsets, exactly as the source does. -/
def compressWithTruncator (s : GoStr) (truncator : Char) (maxLen : Nat) : GoStr :=
  let lenS := s.length
  if lenS ≤ maxLen then s
  else
    let reductionAmount := lenS - maxLen
    let startI := maxLen / 2
    let endI0 := startI + reductionAmount
    let endI := if lenS ≤ endI0 then lenS else endI0
    compressCore truncator startI endI s 0 false

/-- Model of Go `strings.Split(s, "/")`: the parts of `s` between `/`
scalars, keeping empty parts; always at least one part. -/
def splitSlash : GoStr → List GoStr
  | [] => [[]]
  | c :: rest =>
    if c = '/' then [] :: splitSlash rest
    else
      match splitSlash rest with
      | [] => [[c]]
      | h :: t => (c :: h) :: t

/-- Joining of parts with a single `/` between consecutive parts (the
`strings.Join(elem, "/")` step inside `path.Join`). -/
def joinSlash : List GoStr → GoStr
  | [] => []
  | [s] => s
  | s :: t :: rest => s ++ '/' :: joinSlash (t :: rest)

/-- Effect of a `..` part on the `path.Clean` output stack: pop the
previously emitted part when one is available, disappear at the root of a
rooted path, and stack another `..` in a relative path with nothing left to
pop. -/
def dotdotAcc (rooted : Bool) (acc : List GoStr) : List GoStr :=
  match acc with
  | [] => if rooted then [] else [['.', '.']]
  | q :: acc2 => if q = ['.', '.'] then ['.', '.'] :: q :: acc2 else acc2

/-- Segment-level stack machine of Go `path.Clean`: empty and `.` parts
are dropped; `..` updates the stack via `dotdotAcc`; any other part is
emitted (pushed). -/
def cleanPartsGo (rooted : Bool) : List GoStr → List GoStr → List GoStr
  | [], acc => acc.reverse
  | p :: rest, acc =>
    if p = [] ∨ p = ['.'] then cleanPartsGo rooted rest acc
    else if p = ['.', '.'] then cleanPartsGo rooted rest (dotdotAcc rooted acc)
    else cleanPartsGo rooted rest (p :: acc)

/-- Model of Go `path.IsAbs` / the `path[0] == '/'` test. -/
def isRooted (p : GoStr) : Bool :=
  match p with
  | c :: _ => c == '/'
  | [] => false

/-- Model of Go `path.Clean` (identical to `filepath.Clean` on Unix):
lexical normalization of a path. -/
def goClean (p : GoStr) : GoStr :=
  if p = [] then ['.']
  else
    let rooted := isRooted p
    let parts := cleanPartsGo rooted (splitSlash p) []
    if rooted then '/' :: joinSlash parts
    else if parts = [] then ['.']
    else joinSlash parts

/-- Model of Go `path.Join`: empty elements before the first non-empty one
are ignored (Go scans for the first non-empty element), the rest are joined
with `/` and the result is cleaned; all-empty input yields `""`. -/
def goPathJoin (elems : List GoStr) : GoStr :=
  match elems.dropWhile (fun s => s.isEmpty) with
  | [] => []
  | s :: rest => goClean (joinSlash (s :: rest))

/-- Model of `filepath.Abs` as used on an already-cleaned argument
(`line.go` line 176 computes `filepath.Abs(filepath.Clean(p))`): an
absolute path is cleaned and returned; a relative path is joined onto the
working directory; the only error is `os.Getwd` failing (modelled by
`cwd = none`). -/
def goAbs (cwd : Option GoStr) (p : GoStr) : Except Unit GoStr :=
  if isRooted p then Except.ok (goClean p)
  else
    match cwd with
    | some wd => Except.ok (goPathJoin [wd, p])
    | none => Except.error ()

/-- Home-directory substitution of `prettifyPath` (`line.go` lines
182-187): when `HOME` is non-empty and is a raw string prefix of the
normalized path, that prefix is replaced by `~`.  Go's
`strings.HasPrefix` is a byte-wise prefix test, which on valid UTF-8
strings coincides with the scalar-wise prefix test used here, and
`p[len(homePath):]` then drops exactly the scalars of the prefix. -/
def homeSub (home p : GoStr) : GoStr :=
  if home.isEmpty = false ∧ home.isPrefixOf p = true then
    '~' :: p.drop home.length
  else p

/-- Inner scan of the Step 4 pass (`line.go` lines 217-223): running first
index of the maximum so far, comparisons by Go `len` — UTF-8 *byte*
length. -/
def findLongestAux : List GoStr → Nat → Nat → Nat → Nat
  | [], _, bestI, _ => bestI
  | s :: rest, j, bestI, bestLen =>
    if bestLen < byteLen s then findLongestAux rest (j + 1) j (byteLen s)
    else findLongestAux rest (j + 1) bestI bestLen

/-- Index of the byte-longest segment among the first `endI` segments
(first occurrence wins ties), as computed by the scan in `line.go` lines
217-223. -/
def findLongestI (segs : List GoStr) (endI : Nat) : Nat :=
  match segs.take endI with
  | [] => 0
  | s :: rest => findLongestAux rest 1 0 (byteLen s)

/-- One-pass-per-iteration loop of Step 4 (`line.go` lines 213-252).  The
loop variable `i` is only a counter, so the pass is modelled with `fuel`
iterations (the source runs at most `segmentsEndI` of them); each iteration
re-scans for the byte-longest segment, and if that segment can spare runes
(`maxGain = runeLen - 3 > 0`) middle-truncates it by
`min neededGain maxGain` runes. -/
def step4Go (endI : Nat) : Nat → List GoStr → Int → List GoStr × Int
  | 0, segs, gain => (segs, gain)
  | fuel + 1, segs, gain =>
    if 0 < gain then
      let li := findLongestI segs endI
      let segment := segs.getD li []
      let maxGain : Int := (segment.length : Int) - 3
      if 0 < maxGain then
        let reduction := min gain maxGain
        let segs2 := segs.set li
          (compressWithTruncator segment segTruncator
            (segment.length - reduction.toNat))
        step4Go endI fuel segs2 (gain - reduction)
      else step4Go endI fuel segs gain
    else (segs, gain)

/-- Step 4 of `prettifyPath`: the loop runs while `i < segmentsEndI`, so at
most `endI` iterations. -/
def step4 (segs : List GoStr) (endI : Nat) (gain : Int) : List GoStr × Int :=
  step4Go endI endI segs gain

/-- Step 5 of `prettifyPath` (`line.go` lines 256-277): walk the first
`fuel = segmentsEndI` segments in order while `neededGain > 0`; a segment
of rune length exactly 3 is replaced by its first scalar followed by the
truncator, gaining 1. -/
def step5Go : Nat → List GoStr → Int → List GoStr × Int
  | 0, segs, gain => (segs, gain)
  | _ + 1, [], gain => ([], gain)
  | fuel + 1, s :: rest, gain =>
    if 0 < gain then
      if s.length = 3 then
        let s2 : GoStr :=
          match s with
          | c :: _ => [c, segTruncator]
          | [] => []
        let r := step5Go fuel rest (gain - 1)
        (s2 :: r.1, r.2)
      else
        let r := step5Go fuel rest gain
        (s :: r.1, r.2)
    else (s :: rest, gain)

/-- Step 6 of `prettifyPath` (`line.go` lines 281-299): walk the first
`fuel = segmentsEndI` segments in order while `neededGain > 0`; a segment
of rune length exactly 2 whose last scalar is the truncator collapses to
its first scalar, gaining 1. -/
def step6Go : Nat → List GoStr → Int → List GoStr × Int
  | 0, segs, gain => (segs, gain)
  | _ + 1, [], gain => ([], gain)
  | fuel + 1, s :: rest, gain =>
    if 0 < gain then
      if s.length = 2 ∧ s.getLast? = some segTruncator then
        let s2 : GoStr :=
          match s with
          | c :: _ => [c]
          | [] => []
        let r := step6Go fuel rest (gain - 1)
        (s2 :: r.1, r.2)
      else
        let r := step6Go fuel rest gain
        (s :: r.1, r.2)
    else (s :: rest, gain)

/-- Segment pipeline of `prettifyPath` after home substitution: split on
the separator, then run Steps 4, 5 and 6 in that order, each over the
truncatable index range `[0, segments.length - 1)` and each threading the
remaining `neededGain`. -/
def runStages (p : GoStr) (targetLength : Nat) : List GoStr × Int :=
  let segments := splitSlash p
  let endI := segments.length - 1
  let g0 : Int := (p.length : Int) - (targetLength : Int)
  let r4 := step4 segments endI g0
  let r5 := step5Go endI r4.1 r4.2
  step6Go endI r5.1 r5.2

/-- Body of `prettifyPath` after normalization (`line.go` lines 182-314):
home substitution, the three segment passes, then either the Step 7 global
fallback (`compressWithTruncator` on the pre-split string with the
unmodified target) when gain is still positive, or the `path.Join`
reassembly. -/
def prettifyCore (p0 : GoStr) (targetLength : Nat) (home : GoStr) : GoStr :=
  let p := homeSub home p0
  let r := runStages p targetLength
  if 0 < r.2 then compressWithTruncator p segTruncator targetLength
  else goPathJoin r.1

/-- Model of `prettifyPath` (`line.go` lines 174-315).  The only failure is
normalization failing (`filepath.Abs` on a relative path with no working
directory available). -/
def prettifyPath (cwd : Option GoStr) (home : GoStr) (p0 : GoStr)
    (targetLength : Nat) : Except Unit GoStr :=
  match goAbs cwd (goClean p0) with
  | Except.error e => Except.error e
  | Except.ok p => Except.ok (prettifyCore p targetLength home)

/-! ### The ASCII fragment of the compression helper -/

theorem allAscii_cons {c : Char} {s : GoStr} :
    allAscii (c :: s) = true ↔ c.utf8Size = 1 ∧ allAscii s = true := by
  simp [allAscii]

/-- After the truncator has been emitted, the loop keeps exactly the
scalars whose byte offset exceeds `endI`; on ASCII strings byte offsets
advance by 1, so from running offset `i` the kept scalars are
`s.drop (b + 1 - i)`. -/
theorem compressCore_true_eq (t : Char) (a b : Nat) :
    ∀ (s : GoStr) (i : Nat), allAscii s = true → a ≤ i →
      compressCore t a b s i true = s.drop (b + 1 - i) := by
  intro s
  induction s with
  | nil => intro i _ _; simp [compressCore]
  | cons c rest ih =>
    intro i hall hai
    obtain ⟨hc, hrest⟩ := allAscii_cons.1 hall
    simp only [compressCore, hc]
    rw [if_neg (by omega : ¬ i < a), if_neg (by simp : ¬ (true = false))]
    by_cases hib : b < i
    · rw [if_pos hib, ih (i + 1) hrest (by omega)]
      rw [(by omega : b + 1 - i = 0), (by omega : b + 1 - (i + 1) = 0)]
      simp
    · rw [if_neg hib, ih (i + 1) hrest (by omega)]
      rw [(by omega : b + 1 - i = (b + 1 - (i + 1)) + 1), List.drop_succ_cons]

/-- Before the truncator has been emitted (running byte offset `i ≤ a`),
the ASCII behaviour of the loop: if the string ends before offset `a` it is
kept whole, otherwise the first `a - i` scalars are kept, the truncator is
emitted, and the scalars after byte offset `b` follow. -/
theorem compressCore_false_eq (t : Char) (a b : Nat) (hab : a ≤ b) :
    ∀ (s : GoStr) (i : Nat), allAscii s = true → i ≤ a →
      compressCore t a b s i false =
        if s.length + i ≤ a then s
        else s.take (a - i) ++ t :: s.drop (b + 1 - i) := by
  intro s
  induction s with
  | nil => intro i _ hia; simp [compressCore, hia]
  | cons c rest ih =>
    intro i hall hia
    obtain ⟨hc, hrest⟩ := allAscii_cons.1 hall
    simp only [compressCore, hc]
    by_cases hia2 : i < a
    · rw [if_pos hia2, ih (i + 1) hrest (by omega)]
      by_cases hfit : rest.length + (i + 1) ≤ a
      · rw [if_pos hfit, if_pos (by simp; omega)]
      · rw [if_neg hfit, if_neg (by simp; omega)]
        rw [(by omega : a - i = (a - (i + 1)) + 1), List.take_succ_cons]
        rw [(by omega : b + 1 - i = (b + 1 - (i + 1)) + 1), List.drop_succ_cons]
        simp
    · rw [if_neg hia2]
      simp only [if_true]
      rw [compressCore_true_eq t a b rest (i + 1) hrest (by omega)]
      rw [if_neg (by simp; omega)]
      rw [(by omega : a - i = 0), (by omega : b + 1 - i = (b + 1 - (i + 1)) + 1)]
      rw [List.drop_succ_cons]
      simp

/-- ASCII behaviour of `compressWithTruncator` for a positive budget that
requires truncation: keep the first `maxLen / 2` scalars, one truncator,
and the scalars strictly after index `maxLen / 2 + reduction`. -/
theorem compressWithTruncator_ascii_pos (s : GoStr) (t : Char) (m : Nat)
    (hs : allAscii s = true) (hm : m < s.length) (hm1 : 1 ≤ m) :
    compressWithTruncator s t m =
      s.take (m / 2) ++ t :: s.drop (m / 2 + (s.length - m) + 1) := by
  unfold compressWithTruncator
  rw [if_neg (by omega)]
  simp only
  rw [if_neg (by omega : ¬ s.length ≤ m / 2 + (s.length - m))]
  rw [compressCore_false_eq t (m / 2) (m / 2 + (s.length - m)) (by omega) s 0 hs
    (by omega)]
  rw [if_neg (by omega)]
  simp

/-- ASCII behaviour of `compressWithTruncator` with budget 0 on a
non-empty string: the whole string collapses to the bare truncator. -/
theorem compressWithTruncator_ascii_zero (s : GoStr) (t : Char)
    (hs : allAscii s = true) (h0 : 0 < s.length) :
    compressWithTruncator s t 0 = [t] := by
  unfold compressWithTruncator
  rw [if_neg (by omega)]
  simp only
  rw [if_pos (by omega : s.length ≤ 0 / 2 + (s.length - 0))]
  rw [compressCore_false_eq t (0 / 2) s.length (by omega) s 0 hs (by omega)]
  rw [if_neg (by omega)]
  simp [List.drop_eq_nil_of_le]

/-- Output length of `compressWithTruncator` on ASCII strings: a no-op
below the budget, otherwise exactly `maxLen` scalars (1 scalar when
`maxLen = 0`). -/
theorem compressWithTruncator_ascii_length (s : GoStr) (t : Char) (m : Nat)
    (hs : allAscii s = true) :
    (compressWithTruncator s t m).length
      = if s.length ≤ m then s.length else max m 1 := by
  by_cases h : s.length ≤ m
  · rw [if_pos h]
    unfold compressWithTruncator
    rw [if_pos h]
  · rw [if_neg h]
    by_cases hm : 1 ≤ m
    · rw [compressWithTruncator_ascii_pos s t m hs (by omega) hm]
      simp only [List.length_append, List.length_take, List.length_cons,
        List.length_drop]
      omega
    · rw [(by omega : m = 0)] at h ⊢
      rw [compressWithTruncator_ascii_zero s t hs (by omega)]
      simp

/-! ### Claim C5: the cut of the middle-truncation helper -/

/-- C5 counterexample: the claim keeps the scalars *at-or-after* `end`
(`end = start + reduction`), predicting `compress("abcdef", '…', 4) =
"ab…ef"` (`start = 2`, `end = 4`).  The code keeps only the scalars
*strictly after* `end`, producing `"ab…f"`. -/
theorem c5_counterexample :
    compressWithTruncator ("abcdef".toList) '…' 4 = "ab…f".toList ∧
    compressWithTruncator ("abcdef".toList) '…' 4 ≠
      "ab".toList ++ '…' :: "ef".toList := by
  constructor
  · rfl
  · decide

/-- C5 amended: on strings of single-byte scalars `compressWithTruncator`
is a no-op at or under the budget, and otherwise keeps the scalars before
`start = ⌊maxLen/2⌋`, inserts the truncator exactly once, and keeps the
scalars *strictly after* `end = start + reduction` (so the removed run is
the `reduction + 1` scalars at positions `start .. end` inclusive, clamped:
with `maxLen = 0` the whole string collapses to the bare truncator); the
cut offsets are byte offsets, so this scalar description needs the ASCII
hypothesis. -/
theorem c5_amended (s : GoStr) (t : Char) (m : Nat) (hs : allAscii s = true) :
    (s.length ≤ m → compressWithTruncator s t m = s) ∧
    (1 ≤ m → m < s.length →
      compressWithTruncator s t m =
        s.take (m / 2) ++ t :: s.drop (m / 2 + (s.length - m) + 1)) ∧
    (m = 0 → 0 < s.length → compressWithTruncator s t m = [t]) := by
  refine ⟨fun h => ?_, fun h1 h2 => ?_, fun h1 h2 => ?_⟩
  · unfold compressWithTruncator
    rw [if_pos h]
  · exact compressWithTruncator_ascii_pos s t m hs h2 h1
  · subst h1
    exact compressWithTruncator_ascii_zero s t hs h2

/-- Witness for `c5_amended` at `s = "abcdef"`, `maxLen = 4`. -/
theorem c5_amended_witness :
    allAscii ("abcdef".toList) = true ∧
    compressWithTruncator ("abcdef".toList) '…' 4 =
      ("abcdef".toList).take (4 / 2) ++
        '…' :: ("abcdef".toList).drop (4 / 2 + (("abcdef".toList).length - 4) + 1) :=
  ⟨by decide, (c5_amended ("abcdef".toList) '…' 4 (by decide)).2.1 (by decide) (by decide)⟩

/-! ### Claim C2: the rejoin step drops the leading separator -/

/-- C2: the code violates the claim.  A path already under budget is NOT
returned unchanged: the final `path.Join(segments...)` ignores the empty
leading segment produced by splitting an absolute path, so the root `/` is
lost — `/a/b` with budget 60 comes back as `a/b`, and `/` itself comes back
as the empty string. -/
theorem c2_join_drops_root :
    prettifyPath (some ['/']) [] "/a/b".toList 60 = Except.ok ("a/b".toList) ∧
    "a/b".toList ≠ "/a/b".toList ∧
    prettifyPath (some ['/']) [] "/".toList 60 = Except.ok [] := by
  refine ⟨by rfl, by decide, by rfl⟩

/-! ### Claim C4: byte counting in segment selection and in the cut -/

/-- C4: the code violates the claim.  The Step 4 scan compares Go `len`
(UTF-8 byte length), so among `["", "ééé", "abcd"]` it selects index 1
(`"ééé"`, 6 bytes) although `"abcd"` has the greater scalar count; and the
cut loop of `compressWithTruncator` compares byte offsets against
scalar-derived indices, so `compress("éééé", '…', 3)` returns `"é…éé"` — 4
scalars, exceeding `maxLen = 3`.  On the full pipeline,
`/ééé/abcd/x` with target 10 leaves `abcd` untouched and compacts `ééé`
instead. -/
theorem c4_byte_counting :
    findLongestI [[], "ééé".toList, "abcd".toList, "x".toList] 3 = 1 ∧
    ("ééé".toList).length < ("abcd".toList).length ∧
    compressWithTruncator ("éééé".toList) '…' 3 = "é…éé".toList ∧
    (compressWithTruncator ("éééé".toList) '…' 3).length = 4 ∧
    prettifyPath (some ['/']) [] "/ééé/abcd/x".toList 10 =
      Except.ok ("é…/abcd/x".toList) := by
  refine ⟨by decide, by decide, by decide, by decide, by rfl⟩

/-! ### Claim C1, counterexample part -/

/-- C1 counterexample: with `targetLength = 1` on `/ab` the output is the
bare truncator, which contains no truncator-delimited remnant of the
original content (no scalar of `/ab` occurs in it); and with a multi-byte
path `/éééé` and the structurally achievable target 4, the output
`/é…éé` has 5 scalars, violating the claimed length bound. -/
theorem c1_counterexample :
    prettifyPath (some ['/']) [] "/ab".toList 1 = Except.ok ['…'] ∧
    (∀ c ∈ ['…'], c ∉ "/ab".toList) ∧
    prettifyPath (some ['/']) [] "/éééé".toList 4 = Except.ok ("/é…éé".toList) ∧
    4 < ("/é…éé".toList).length := by
  refine ⟨by rfl, by decide, by rfl, by decide⟩

/-! ### Claim C3, counterexample part -/

/-- C3 counterexample: the round trip fails.  Home substitution makes the
first output `~/x`, which the second call resolves as a relative path
against the working directory (`/c`), yielding `c/~/x`; and even without a
home prefix the rejoin drops the root `/`, so the second call on `a`
resolves to `/c/a` and returns `c/a ≠ a`. -/
theorem c3_counterexample :
    prettifyPath (some ['/', 'c']) "/h".toList ("/h/x".toList) 60 =
      Except.ok ("~/x".toList) ∧
    prettifyPath (some ['/', 'c']) "/h".toList ("~/x".toList) 60 =
      Except.ok ("c/~/x".toList) ∧
    "c/~/x".toList ≠ "~/x".toList ∧
    prettifyPath (some ['/', 'c']) [] "/a".toList 60 = Except.ok ("a".toList) ∧
    prettifyPath (some ['/', 'c']) [] "a".toList 60 = Except.ok ("c/a".toList) ∧
    "c/a".toList ≠ "a".toList := by
  refine ⟨by rfl, by rfl, by decide, by rfl, by rfl, by decide⟩

/-! ### Claim C6: the Step 7 global fallback -/

/-- C6: when the gain is still positive after Steps 4-6, `prettifyPath`
discards the segment-level work and middle-truncates the original
home-substituted, pre-split string with the unmodified target length. -/
theorem c6_fallback (p0 : GoStr) (tl : Nat) (home : GoStr)
    (h : 0 < (runStages (homeSub home p0) tl).2) :
    prettifyCore p0 tl home =
      compressWithTruncator (homeSub home p0) segTruncator tl := by
  unfold prettifyCore
  simp only []
  rw [if_pos h]

/-- Witness for `c6_fallback` at the specification's own two-segment
example: `/averyverylongbasenamethatoverflows` with target 10 produces the
single-truncator middle-compressed rendering `/aver…lows` of the whole
string. -/
theorem c6_fallback_witness :
    0 < (runStages (homeSub []
        "/averyverylongbasenamethatoverflows".toList) 10).2 ∧
    prettifyCore ("/averyverylongbasenamethatoverflows".toList) 10 [] =
      compressWithTruncator
        (homeSub [] "/averyverylongbasenamethatoverflows".toList)
        segTruncator 10 ∧
    prettifyPath (some ['/']) [] "/averyverylongbasenamethatoverflows".toList 10 =
      Except.ok ("/aver…lows".toList) :=
  ⟨by decide, c6_fallback _ _ _ (by decide), by rfl⟩

/-! ### Claim C8: the unique failure condition -/

/-- C8: `prettifyPath` fails exactly when normalization fails — the cleaned
input is not absolute and no working directory is available (`os.Getwd`
fails); the single error kind is modelled by the `Unit` error type.  Every
other input, including extreme targets and paths already within budget, is
handled without error. -/
theorem c8_error_iff (cwd : Option GoStr) (home p0 : GoStr) (tl : Nat) :
    prettifyPath cwd home p0 tl = Except.error () ↔
      isRooted (goClean p0) = false ∧ cwd = none := by
  unfold prettifyPath goAbs
  by_cases hr : isRooted (goClean p0)
  · simp [hr]
  · cases cwd with
    | none => simp [hr]
    | some wd => simp [hr]

/-! ### Claim C10: raw-prefix home substitution -/

/-- C10: home substitution is a raw scalar-prefix replacement, applied
whenever the non-empty `HOME` value is a string prefix of the normalized
path, with no regard for segment boundaries. -/
theorem c10_raw_prefix_sub (home p : GoStr) (h1 : home.isEmpty = false)
    (h2 : home.isPrefixOf p = true) :
    homeSub home p = '~' :: p.drop home.length := by
  unfold homeSub
  rw [if_pos ⟨h1, h2⟩]

/-- Witness for `c10_raw_prefix_sub` at the mid-segment boundary case
`HOME = /home/al`, path `/home/alice`: the entire first (and only)
segment of the substituted path becomes `~ice`, and the path was not under
the home directory. -/
theorem c10_raw_prefix_sub_witness :
    ("/home/al".toList).isEmpty = false ∧
    ("/home/al".toList).isPrefixOf ("/home/alice".toList) = true ∧
    homeSub ("/home/al".toList) "/home/alice".toList =
      '~' :: ("/home/alice".toList).drop ("/home/al".toList).length ∧
    homeSub ("/home/al".toList) "/home/alice".toList = "~ice".toList ∧
    prettifyPath (some ['/']) "/home/al".toList ("/home/alice".toList) 60 =
      Except.ok ("~ice".toList) :=
  ⟨by decide, by decide, c10_raw_prefix_sub _ _ (by decide) (by decide),
    by decide, by rfl⟩

/-! ### Claim C7: the Step 5 and Step 6 compaction passes -/

/-- Specification-side rendering of Step 5 (three-character segment
compaction): walk the truncatable segments in order; while the needed gain
is positive, a segment of scalar length exactly 3 is replaced by its first
scalar followed by the truncator (length 2) and the gain decreases by 1,
stopping as soon as the gain reaches 0. -/
def compact3Budget : List GoStr → Int → List GoStr × Int
  | [], g => ([], g)
  | s :: rest, g =>
    if 0 < g then
      if s.length = 3 then
        let r := compact3Budget rest (g - 1)
        ((s.take 1 ++ [segTruncator]) :: r.1, r.2)
      else
        let r := compact3Budget rest g
        (s :: r.1, r.2)
    else (s :: rest, g)

/-- Specification-side rendering of Step 6 (two-character collapse): walk
the truncatable segments in order; while the needed gain is positive, a
segment of scalar length exactly 2 whose final scalar is the truncator is
replaced by its first scalar (length 1) and the gain decreases by 1,
stopping as soon as the gain reaches 0. -/
def collapse2Budget : List GoStr → Int → List GoStr × Int
  | [], g => ([], g)
  | s :: rest, g =>
    if 0 < g then
      if s.length = 2 ∧ s.getLast? = some segTruncator then
        let r := collapse2Budget rest (g - 1)
        (s.take 1 :: r.1, r.2)
      else
        let r := collapse2Budget rest g
        (s :: r.1, r.2)
    else (s :: rest, g)

theorem step5Go_eq_compact3 :
    ∀ (fuel : Nat) (segs : List GoStr) (g : Int),
      step5Go fuel segs g =
        ((compact3Budget (segs.take fuel) g).1 ++ segs.drop fuel,
         (compact3Budget (segs.take fuel) g).2) := by
  intro fuel
  induction fuel with
  | zero => intro segs g; simp [step5Go, compact3Budget]
  | succ n ih =>
    intro segs g
    cases segs with
    | nil => simp [step5Go, compact3Budget]
    | cons s rest =>
      rw [List.take_succ_cons, List.drop_succ_cons]
      by_cases hg : 0 < g
      · by_cases h3 : s.length = 3
        · cases s with
          | nil => simp at h3
          | cons c cs =>
            simp only [step5Go, compact3Budget, if_pos hg, if_pos h3, ih,
              List.cons_append]
            simp
        · simp only [step5Go, compact3Budget, if_pos hg, if_neg h3, ih,
            List.cons_append]
      · simp only [step5Go, compact3Budget, if_neg hg, List.cons_append]
        simp [List.take_append_drop]

theorem step6Go_eq_collapse2 :
    ∀ (fuel : Nat) (segs : List GoStr) (g : Int),
      step6Go fuel segs g =
        ((collapse2Budget (segs.take fuel) g).1 ++ segs.drop fuel,
         (collapse2Budget (segs.take fuel) g).2) := by
  intro fuel
  induction fuel with
  | zero => intro segs g; simp [step6Go, collapse2Budget]
  | succ n ih =>
    intro segs g
    cases segs with
    | nil => simp [step6Go, collapse2Budget]
    | cons s rest =>
      rw [List.take_succ_cons, List.drop_succ_cons]
      by_cases hg : 0 < g
      · by_cases h2 : s.length = 2 ∧ s.getLast? = some segTruncator
        · cases s with
          | nil => simp at h2
          | cons c cs =>
            simp only [step6Go, collapse2Budget, if_pos hg, if_pos h2, ih,
              List.cons_append]
            simp
        · simp only [step6Go, collapse2Budget, if_pos hg, if_neg h2, ih,
            List.cons_append]
      · simp only [step6Go, collapse2Budget, if_neg hg, List.cons_append]
        simp [List.take_append_drop]

/-- C7: Steps 5 and 6 behave exactly as the claim states over the
truncatable window (the first `fuel = segmentsEndI` segments): Step 5
replaces each length-3 segment with its first scalar followed by the
truncator, Step 6 collapses each length-2 truncator-ended segment to its
first scalar, each decrementing the gain by 1 per segment and stopping as
soon as it reaches 0, leaving the segments beyond the window untouched; and
in the pipeline Step 5 runs to completion before Step 6 starts. -/
theorem c7_compaction_passes :
    (∀ (fuel : Nat) (segs : List GoStr) (g : Int),
       step5Go fuel segs g =
         ((compact3Budget (segs.take fuel) g).1 ++ segs.drop fuel,
          (compact3Budget (segs.take fuel) g).2)) ∧
    (∀ (fuel : Nat) (segs : List GoStr) (g : Int),
       step6Go fuel segs g =
         ((collapse2Budget (segs.take fuel) g).1 ++ segs.drop fuel,
          (collapse2Budget (segs.take fuel) g).2)) ∧
    (∀ (p : GoStr) (tl : Nat),
       runStages p tl =
         step6Go ((splitSlash p).length - 1)
           (step5Go ((splitSlash p).length - 1)
             (step4 (splitSlash p) ((splitSlash p).length - 1)
               ((p.length : Int) - (tl : Int))).1
             (step4 (splitSlash p) ((splitSlash p).length - 1)
               ((p.length : Int) - (tl : Int))).2).1
           (step5Go ((splitSlash p).length - 1)
             (step4 (splitSlash p) ((splitSlash p).length - 1)
               ((p.length : Int) - (tl : Int))).1
             (step4 (splitSlash p) ((splitSlash p).length - 1)
               ((p.length : Int) - (tl : Int))).2).2) :=
  ⟨step5Go_eq_compact3, step6Go_eq_collapse2, fun _ _ => rfl⟩

/-! ### Claim C9: the base name and the home marker are never modified -/

theorem splitSlash_ne_nil : ∀ (p : GoStr), splitSlash p ≠ [] := by
  intro p
  cases p with
  | nil => simp [splitSlash]
  | cons c rest =>
    simp only [splitSlash]
    by_cases hc : c = '/'
    · rw [if_pos hc]; simp
    · rw [if_neg hc]
      cases splitSlash rest with
      | nil => simp
      | cons h t => simp

theorem findLongestAux_lt :
    ∀ (xs : List GoStr) (j bi bl : Nat), bi < j →
      findLongestAux xs j bi bl < j + xs.length := by
  intro xs
  induction xs with
  | nil => intro j bi bl h; simpa [findLongestAux] using h
  | cons s rest ih =>
    intro j bi bl h
    simp only [findLongestAux]
    by_cases hc : bl < byteLen s
    · rw [if_pos hc]
      have := ih (j + 1) j (byteLen s) (by omega)
      simp only [List.length_cons]
      omega
    · rw [if_neg hc]
      have := ih (j + 1) bi bl (by omega)
      simp only [List.length_cons]
      omega

theorem findLongestI_lt (segs : List GoStr) (endI : Nat)
    (h1 : 0 < endI) (h2 : segs ≠ []) :
    findLongestI segs endI < min endI segs.length := by
  unfold findLongestI
  cases htake : segs.take endI with
  | nil =>
    exfalso
    cases segs with
    | nil => exact h2 rfl
    | cons s rest =>
      cases endI with
      | zero => omega
      | succ n => simp [List.take_succ_cons] at htake
  | cons s rest =>
    have hlen := congrArg List.length htake
    rw [List.length_take] at hlen
    simp only [List.length_cons] at hlen
    have := findLongestAux_lt rest 1 0 (byteLen s) (by omega)
    show findLongestAux rest 1 0 (byteLen s) < min endI segs.length
    omega

theorem step4Go_length (endI fuel : Nat) (segs : List GoStr) (g : Int) :
    (step4Go endI fuel segs g).1.length = segs.length := by
  induction fuel generalizing segs g with
  | zero => rfl
  | succ n ih =>
    simp only [step4Go]
    by_cases hg : 0 < g
    · rw [if_pos hg]
      by_cases hmg : (0 : Int) <
          ((segs.getD (findLongestI segs endI) []).length : Int) - 3
      · rw [if_pos hmg, ih]
        exact List.length_set segs _ _
      · rw [if_neg hmg]; exact ih segs g
    · rw [if_neg hg]

/-- Segments at indices at or beyond `endI` are untouched by Step 4. -/
theorem step4Go_getElem_keep (endI fuel : Nat) (segs : List GoStr) (g : Int)
    (i : Nat) (hfe : fuel ≤ endI) (hei : endI ≤ i) :
    (step4Go endI fuel segs g).1[i]? = segs[i]? := by
  induction fuel generalizing segs g with
  | zero => rfl
  | succ n ih =>
    simp only [step4Go]
    by_cases hg : 0 < g
    · rw [if_pos hg]
      by_cases hmg : (0 : Int) <
          ((segs.getD (findLongestI segs endI) []).length : Int) - 3
      · rw [if_pos hmg]
        have hne : segs ≠ [] := by
          intro he
          subst he
          simp [List.getD_eq_getElem?_getD] at hmg
        have hli := findLongestI_lt segs endI (by omega) hne
        rw [ih _ _ (by omega)]
        exact List.getElem?_set_ne (by omega)
      · rw [if_neg hmg]; exact ih segs g (by omega)
    · rw [if_neg hg]

/-- A segment that is exactly the home marker `~` is never modified by
Step 4 (it has length 1, so it can never be the compressed segment). -/
theorem step4Go_tilde (endI fuel : Nat) (segs : List GoStr) (g : Int)
    (i : Nat) (hi : segs[i]? = some ['~']) :
    (step4Go endI fuel segs g).1[i]? = some ['~'] := by
  induction fuel generalizing segs g with
  | zero => exact hi
  | succ n ih =>
    simp only [step4Go]
    by_cases hg : 0 < g
    · rw [if_pos hg]
      by_cases hmg : (0 : Int) <
          ((segs.getD (findLongestI segs endI) []).length : Int) - 3
      · rw [if_pos hmg]
        have hne : findLongestI segs endI ≠ i := by
          intro he
          rw [List.getD_eq_getElem?_getD, he, hi] at hmg
          simp at hmg
        apply ih
        rw [List.getElem?_set_ne hne]
        exact hi
      · rw [if_neg hmg]; exact ih segs g hi
    · rw [if_neg hg]; exact hi

theorem step5Go_length (fuel : Nat) (segs : List GoStr) (g : Int) :
    (step5Go fuel segs g).1.length = segs.length := by
  induction fuel generalizing segs g with
  | zero => rfl
  | succ n ih =>
    cases segs with
    | nil => rfl
    | cons s rest =>
      simp only [step5Go]
      by_cases hg : 0 < g
      · rw [if_pos hg]
        by_cases h3 : s.length = 3
        · rw [if_pos h3]; simp [ih]
        · rw [if_neg h3]; simp [ih]
      · rw [if_neg hg]

theorem step5Go_getElem_high (fuel : Nat) (segs : List GoStr) (g : Int)
    (i : Nat) (h : fuel ≤ i) :
    (step5Go fuel segs g).1[i]? = segs[i]? := by
  induction fuel generalizing segs g i with
  | zero => rfl
  | succ n ih =>
    cases segs with
    | nil => rfl
    | cons s rest =>
      obtain ⟨j, rfl⟩ : ∃ j, i = j + 1 := ⟨i - 1, by omega⟩
      simp only [step5Go]
      by_cases hg : 0 < g
      · rw [if_pos hg]
        by_cases h3 : s.length = 3
        · rw [if_pos h3]
          simp only [List.getElem?_cons_succ]
          exact ih rest (g - 1) j (by omega)
        · rw [if_neg h3]
          simp only [List.getElem?_cons_succ]
          exact ih rest g j (by omega)
      · rw [if_neg hg]

theorem step5Go_tilde (fuel : Nat) (segs : List GoStr) (g : Int)
    (i : Nat) (hi : segs[i]? = some ['~']) :
    (step5Go fuel segs g).1[i]? = some ['~'] := by
  induction fuel generalizing segs g i with
  | zero => exact hi
  | succ n ih =>
    cases segs with
    | nil => exact hi
    | cons s rest =>
      simp only [step5Go]
      by_cases hg : 0 < g
      · rw [if_pos hg]
        cases i with
        | zero =>
          simp only [List.getElem?_cons_zero, Option.some.injEq] at hi
          subst hi
          rw [if_neg (by simp)]
          simp
        | succ j =>
          simp only [List.getElem?_cons_succ] at hi
          by_cases h3 : s.length = 3
          · rw [if_pos h3]
            simp only [List.getElem?_cons_succ]
            exact ih rest (g - 1) j hi
          · rw [if_neg h3]
            simp only [List.getElem?_cons_succ]
            exact ih rest g j hi
      · rw [if_neg hg]; exact hi

theorem step6Go_length (fuel : Nat) (segs : List GoStr) (g : Int) :
    (step6Go fuel segs g).1.length = segs.length := by
  induction fuel generalizing segs g with
  | zero => rfl
  | succ n ih =>
    cases segs with
    | nil => rfl
    | cons s rest =>
      simp only [step6Go]
      by_cases hg : 0 < g
      · rw [if_pos hg]
        by_cases h2 : s.length = 2 ∧ s.getLast? = some segTruncator
        · rw [if_pos h2]; simp [ih]
        · rw [if_neg h2]; simp [ih]
      · rw [if_neg hg]

theorem step6Go_getElem_high (fuel : Nat) (segs : List GoStr) (g : Int)
    (i : Nat) (h : fuel ≤ i) :
    (step6Go fuel segs g).1[i]? = segs[i]? := by
  induction fuel generalizing segs g i with
  | zero => rfl
  | succ n ih =>
    cases segs with
    | nil => rfl
    | cons s rest =>
      obtain ⟨j, rfl⟩ : ∃ j, i = j + 1 := ⟨i - 1, by omega⟩
      simp only [step6Go]
      by_cases hg : 0 < g
      · rw [if_pos hg]
        by_cases h2 : s.length = 2 ∧ s.getLast? = some segTruncator
        · rw [if_pos h2]
          simp only [List.getElem?_cons_succ]
          exact ih rest (g - 1) j (by omega)
        · rw [if_neg h2]
          simp only [List.getElem?_cons_succ]
          exact ih rest g j (by omega)
      · rw [if_neg hg]

theorem step6Go_tilde (fuel : Nat) (segs : List GoStr) (g : Int)
    (i : Nat) (hi : segs[i]? = some ['~']) :
    (step6Go fuel segs g).1[i]? = some ['~'] := by
  induction fuel generalizing segs g i with
  | zero => exact hi
  | succ n ih =>
    cases segs with
    | nil => exact hi
    | cons s rest =>
      simp only [step6Go]
      by_cases hg : 0 < g
      · rw [if_pos hg]
        cases i with
        | zero =>
          simp only [List.getElem?_cons_zero, Option.some.injEq] at hi
          subst hi
          rw [if_neg (by simp)]
          simp
        | succ j =>
          simp only [List.getElem?_cons_succ] at hi
          by_cases h2 : s.length = 2 ∧ s.getLast? = some segTruncator
          · rw [if_pos h2]
            simp only [List.getElem?_cons_succ]
            exact ih rest (g - 1) j hi
          · rw [if_neg h2]
            simp only [List.getElem?_cons_succ]
            exact ih rest g j hi
      · rw [if_neg hg]; exact hi

theorem runStages_eq (p : GoStr) (tl : Nat) :
    runStages p tl =
      step6Go ((splitSlash p).length - 1)
        (step5Go ((splitSlash p).length - 1)
          (step4Go ((splitSlash p).length - 1) ((splitSlash p).length - 1)
            (splitSlash p) ((p.length : Int) - (tl : Int))).1
          (step4Go ((splitSlash p).length - 1) ((splitSlash p).length - 1)
            (splitSlash p) ((p.length : Int) - (tl : Int))).2).1
        (step5Go ((splitSlash p).length - 1)
          (step4Go ((splitSlash p).length - 1) ((splitSlash p).length - 1)
            (splitSlash p) ((p.length : Int) - (tl : Int))).1
          (step4Go ((splitSlash p).length - 1) ((splitSlash p).length - 1)
            (splitSlash p) ((p.length : Int) - (tl : Int))).2).2 := rfl

/-- C9: the last segment (the base name) and any segment that is exactly
the home marker `~` survive Steps 4, 5 and 6 unmodified, for every input
string and target: the passes only touch indices below
`segments.length - 1`, and the marker's length (1) disqualifies it from
every modification rule. -/
theorem c9_protected_segments (p : GoStr) (tl : Nat) :
    (runStages p tl).1.getLast? = (splitSlash p).getLast? ∧
    (∀ i : Nat, (splitSlash p)[i]? = some ['~'] →
      (runStages p tl).1[i]? = some ['~']) := by
  have h0 : 0 < (splitSlash p).length :=
    List.length_pos.2 (splitSlash_ne_nil p)
  rw [runStages_eq]
  set S := splitSlash p with hS
  set E := S.length - 1 with hE
  set G : Int := (p.length : Int) - (tl : Int) with hG
  set R4 := step4Go E E S G with hR4
  set R5 := step5Go E R4.1 R4.2 with hR5
  have l4 : R4.1.length = S.length := by rw [hR4]; exact step4Go_length E E S G
  have l5 : R5.1.length = S.length := by rw [hR5, step5Go_length, l4]
  have l6 : (step6Go E R5.1 R5.2).1.length = S.length := by
    rw [step6Go_length, l5]
  constructor
  · rw [List.getLast?_eq_getElem?, List.getLast?_eq_getElem?, l6]
    rw [step6Go_getElem_high E R5.1 R5.2 (S.length - 1) (by omega)]
    rw [hR5, step5Go_getElem_high E R4.1 R4.2 (S.length - 1) (by omega)]
    rw [hR4]
    exact step4Go_getElem_keep E E S G (S.length - 1) le_rfl (by omega)
  · intro i hi
    exact step6Go_tilde E R5.1 R5.2 i
      (step5Go_tilde E R4.1 R4.2 i (step4Go_tilde E E S G i hi))

/-- Witness for `c9_protected_segments` on `~/abcdefgh/x` with target 5:
Steps 4-6 all fire (the middle segment becomes `a`), yet segment 0 is still
the `~` marker and the last segment is still `x`. -/
theorem c9_protected_segments_witness :
    (runStages ("~/abcdefgh/x".toList) 5).1.getLast? =
      (splitSlash ("~/abcdefgh/x".toList)).getLast? ∧
    (runStages ("~/abcdefgh/x".toList) 5).1[0]? = some ['~'] :=
  ⟨(c9_protected_segments _ _).1,
   (c9_protected_segments ("~/abcdefgh/x".toList) 5).2 0 (by decide)⟩

/-! ### Scalar-count accounting for the segment pipeline -/

/-- Total scalar count of a list of segments. -/
def sumLen (xs : List GoStr) : Nat := (xs.map List.length).sum

/-- Scalar count of the path a segment list denotes: the segments plus one
separator between each consecutive pair. -/
def totalLen (xs : List GoStr) : Nat := sumLen xs + (xs.length - 1)

/-- Invariant maintained by Step 4 while gain remains: every segment is
either pure ASCII (an original segment of an ASCII path) or too short to be
middle-truncated again. -/
def SegInv (segs : List GoStr) : Prop :=
  ∀ s ∈ segs, allAscii s = true ∨ s.length ≤ 3

/-- Number of empty parts in a part list. -/
def countNil : List GoStr → Nat
  | [] => 0
  | q :: rest => (if q = [] then 1 else 0) + countNil rest

theorem sumLen_cons (s : GoStr) (L : List GoStr) :
    sumLen (s :: L) = s.length + sumLen L := by
  simp [sumLen]

theorem joinSlash_length : ∀ (xs : List GoStr),
    (joinSlash xs).length = totalLen xs := by
  intro xs
  induction xs with
  | nil => simp [joinSlash, totalLen, sumLen]
  | cons s rest ih =>
    cases rest with
    | nil => simp [joinSlash, totalLen, sumLen]
    | cons t rest2 =>
      show (s ++ '/' :: joinSlash (t :: rest2)).length = _
      rw [List.length_append, List.length_cons, ih]
      simp only [totalLen, sumLen_cons, List.length_cons]
      omega

theorem joinSlash_splitSlash : ∀ (p : GoStr), joinSlash (splitSlash p) = p := by
  intro p
  induction p with
  | nil => rfl
  | cons c rest ih =>
    simp only [splitSlash]
    by_cases hc : c = '/'
    · rw [if_pos hc]
      subst hc
      cases hs : splitSlash rest with
      | nil => exact absurd hs (splitSlash_ne_nil rest)
      | cons h t =>
        rw [hs] at ih
        show [] ++ '/' :: joinSlash (h :: t) = '/' :: rest
        rw [ih]
        simp
    · rw [if_neg hc]
      cases hs : splitSlash rest with
      | nil => exact absurd hs (splitSlash_ne_nil rest)
      | cons h t =>
        rw [hs] at ih
        cases t with
        | nil =>
          show c :: h = c :: rest
          rw [← ih]
          rfl
        | cons t1 t2 =>
          show (c :: h) ++ '/' :: joinSlash (t1 :: t2) = c :: rest
          rw [← ih]
          rfl

theorem totalLen_splitSlash (p : GoStr) : totalLen (splitSlash p) = p.length := by
  rw [← joinSlash_length, joinSlash_splitSlash]

theorem sumLen_set :
    ∀ (xs : List GoStr) (i : Nat) (a : GoStr), i < xs.length →
      sumLen (xs.set i a) + (xs.getD i []).length = sumLen xs + a.length := by
  intro xs
  induction xs with
  | nil => intro i a h; simp at h
  | cons x rest ih =>
    intro i a h
    cases i with
    | zero =>
      simp only [List.set_cons_zero, sumLen_cons, List.getD_cons_zero]
      omega
    | succ j =>
      simp only [List.set_cons_succ, sumLen_cons, List.getD_cons_succ]
      have := ih j a (by simpa using h)
      omega

/-- Gain accounting for Step 4: while gain remains positive every segment
is ASCII or short (so each middle truncation removes exactly the booked
number of scalars), hence the running difference between the total segment
scalar count and the remaining gain is invariant. -/
theorem step4Go_account (endI : Nat) :
    ∀ (fuel : Nat) (segs : List GoStr) (g : Int),
      (0 < g → SegInv segs) →
      (sumLen (step4Go endI fuel segs g).1 : Int) - (step4Go endI fuel segs g).2
        = (sumLen segs : Int) - g := by
  intro fuel
  induction fuel with
  | zero => intro segs g _; simp [step4Go]
  | succ n ih =>
    intro segs g hinv
    simp only [step4Go]
    by_cases hg : 0 < g
    · rw [if_pos hg]
      by_cases hmg : (0 : Int) <
          ((segs.getD (findLongestI segs endI) []).length : Int) - 3
      · rw [if_pos hmg]
        set li := findLongestI segs endI with hli
        set seg := segs.getD li [] with hseg
        have h3 : 3 < seg.length := by omega
        have hlt : li < segs.length := by
          by_contra hge
          push_neg at hge
          rw [hseg, List.getD_eq_getElem?_getD,
            List.getElem?_eq_none hge] at h3
          simp at h3
        have hmem : seg ∈ segs := by
          have hsege : seg = segs[li] := by
            rw [hseg, List.getD_eq_getElem?_getD, List.getElem?_eq_getElem hlt]
            rfl
          rw [hsege]
          exact List.getElem_mem hlt
        have hascii : allAscii seg = true := by
          rcases hinv hg seg hmem with h | h
          · exact h
          · omega
        set red := min g ((seg.length : Int) - 3) with hred
        set m := seg.length - red.toNat with hm
        have hred1 : 1 ≤ red := by omega
        have hredle : red.toNat ≤ seg.length - 3 := by omega
        have hclen : (compressWithTruncator seg segTruncator m).length = m := by
          rw [compressWithTruncator_ascii_length seg segTruncator m hascii]
          rw [if_neg (by omega)]
          omega
        have hsum := sumLen_set segs li
          (compressWithTruncator seg segTruncator m) hlt
        rw [← hseg] at hsum
        have hinv2 : 0 < g - red →
            SegInv (segs.set li (compressWithTruncator seg segTruncator m)) := by
          intro hg2
          have hm3 : m = 3 := by omega
          intro s hs
          rcases List.mem_or_eq_of_mem_set hs with h | h
          · exact hinv hg s h
          · right
            rw [h, hclen, hm3]
        have hrec := ih (segs.set li (compressWithTruncator seg segTruncator m))
          (g - red) hinv2
        omega
      · rw [if_neg hmg]; exact ih segs g hinv
    · rw [if_neg hg]

/-- Gain accounting for Step 5: each replacement shortens one length-3
segment to length 2 and books exactly 1 gained scalar. -/
theorem step5Go_account (fuel : Nat) (segs : List GoStr) (g : Int) :
    (sumLen (step5Go fuel segs g).1 : Int) - (step5Go fuel segs g).2
      = (sumLen segs : Int) - g := by
  induction fuel generalizing segs g with
  | zero => simp [step5Go]
  | succ n ih =>
    cases segs with
    | nil => simp [step5Go]
    | cons s rest =>
      simp only [step5Go]
      by_cases hg : 0 < g
      · rw [if_pos hg]
        by_cases h3 : s.length = 3
        · rw [if_pos h3]
          cases s with
          | nil => simp at h3
          | cons c cs =>
            have hrec := ih rest (g - 1)
            simp only [sumLen_cons, List.length_cons, List.length_nil,
              List.length_singleton] at hrec ⊢
            simp only [List.length_cons] at h3
            omega
        · rw [if_neg h3]
          have hrec := ih rest g
          simp only [sumLen_cons] at hrec ⊢
          omega
      · rw [if_neg hg]

/-- Gain accounting for Step 6: each collapse shortens one length-2
segment to length 1 and books exactly 1 gained scalar. -/
theorem step6Go_account (fuel : Nat) (segs : List GoStr) (g : Int) :
    (sumLen (step6Go fuel segs g).1 : Int) - (step6Go fuel segs g).2
      = (sumLen segs : Int) - g := by
  induction fuel generalizing segs g with
  | zero => simp [step6Go]
  | succ n ih =>
    cases segs with
    | nil => simp [step6Go]
    | cons s rest =>
      simp only [step6Go]
      by_cases hg : 0 < g
      · rw [if_pos hg]
        by_cases h2 : s.length = 2 ∧ s.getLast? = some segTruncator
        · rw [if_pos h2]
          cases s with
          | nil => simp at h2
          | cons c cs =>
            have hrec := ih rest (g - 1)
            simp only [sumLen_cons, List.length_cons, List.length_nil,
              List.length_singleton] at hrec ⊢
            have := h2.1
            simp only [List.length_cons] at this
            omega
        · rw [if_neg h2]
          have hrec := ih rest g
          simp only [sumLen_cons] at hrec ⊢
          omega
      · rw [if_neg hg]


/-! ### Length bounds for cleaning and joining -/

theorem sumLen_nil : sumLen ([] : List GoStr) = 0 := rfl

theorem totalLen_dropWhile_le (xs : List GoStr) :
    totalLen (xs.dropWhile (fun s => s.isEmpty)) ≤ totalLen xs := by
  induction xs with
  | nil => simp
  | cons x rest ih =>
    rw [List.dropWhile_cons]
    by_cases hx : x.isEmpty
    · rw [if_pos (by simpa using hx)]
      refine le_trans ih ?_
      simp only [totalLen, sumLen_cons, List.length_cons]
      omega
    · rw [if_neg (by simpa using hx)]

theorem dropWhile_head_isEmpty_false :
    ∀ (xs : List GoStr) (y : GoStr) (ys : List GoStr),
      xs.dropWhile (fun s => s.isEmpty) = y :: ys → y.isEmpty = false := by
  intro xs
  induction xs with
  | nil => intro y ys h; simp [List.dropWhile] at h
  | cons x rest ih =>
    intro y ys h
    rw [List.dropWhile_cons] at h
    by_cases hx : x.isEmpty
    · rw [if_pos (by simpa using hx)] at h
      exact ih y ys h
    · rw [if_neg (by simpa using hx)] at h
      cases h
      exact Bool.eq_false_iff.mpr hx

theorem dotdotAcc_sumLen (rooted : Bool) (acc : List GoStr) :
    sumLen (dotdotAcc rooted acc) ≤ 2 + sumLen acc := by
  cases acc with
  | nil =>
    simp only [dotdotAcc]
    by_cases hr : rooted
    · rw [if_pos hr]; simp [sumLen]
    · rw [if_neg hr]; simp [sumLen]
  | cons q acc2 =>
    simp only [dotdotAcc]
    by_cases hq : q = ['.', '.']
    · rw [if_pos hq, hq]
      simp only [sumLen_cons]
      simp
    · rw [if_neg hq]
      simp only [sumLen_cons]
      omega

theorem dotdotAcc_length (rooted : Bool) (acc : List GoStr) :
    (dotdotAcc rooted acc).length ≤ 1 + acc.length := by
  cases acc with
  | nil =>
    simp only [dotdotAcc]
    by_cases hr : rooted
    · rw [if_pos hr]; simp
    · rw [if_neg hr]; simp
  | cons q acc2 =>
    simp only [dotdotAcc]
    by_cases hq : q = ['.', '.']
    · rw [if_pos hq]
      simp only [List.length_cons]
      omega
    · rw [if_neg hq]
      simp only [List.length_cons]
      omega

/-- Sum and count bounds for the `path.Clean` stack machine: the emitted
parts are built only from input parts, so their total scalar count never
exceeds the input's, and every empty input part strictly reduces the
emitted count relative to the input count. -/
theorem cleanPartsGo_sums (rooted : Bool) :
    ∀ (parts acc : List GoStr),
      sumLen (cleanPartsGo rooted parts acc) ≤ sumLen parts + sumLen acc ∧
      (cleanPartsGo rooted parts acc).length + countNil parts
        ≤ parts.length + acc.length := by
  intro parts
  induction parts with
  | nil =>
    intro acc
    simp [cleanPartsGo, countNil, sumLen, List.map_reverse, List.sum_reverse]
  | cons p rest ih =>
    intro acc
    simp only [cleanPartsGo]
    by_cases hskip : p = [] ∨ p = ['.']
    · rw [if_pos hskip]
      obtain ⟨s1, s2⟩ := ih acc
      constructor
      · refine le_trans s1 ?_
        simp only [sumLen_cons]
        omega
      · simp only [countNil, List.length_cons]
        by_cases hpe : p = []
        · rw [if_pos hpe]; omega
        · rw [if_neg hpe]; omega
    · rw [if_neg hskip]
      have hpne : p ≠ [] := fun he => hskip (Or.inl he)
      have hcn : countNil (p :: rest) = countNil rest := by
        simp only [countNil]
        rw [if_neg hpne]
        omega
      by_cases hdd : p = ['.', '.']
      · rw [if_pos hdd]
        have hp2 : p.length = 2 := by rw [hdd]; rfl
        obtain ⟨s1, s2⟩ := ih (dotdotAcc rooted acc)
        have hds := dotdotAcc_sumLen rooted acc
        have hdl := dotdotAcc_length rooted acc
        constructor
        · refine le_trans s1 ?_
          simp only [sumLen_cons]
          omega
        · rw [hcn]
          simp only [List.length_cons]
          omega
      · rw [if_neg hdd]
        obtain ⟨s1, s2⟩ := ih (p :: acc)
        constructor
        · refine le_trans s1 ?_
          simp only [sumLen_cons]
          omega
        · rw [hcn]
          simp only [List.length_cons] at s2 ⊢
          omega

theorem splitSlash_rooted_two (p : GoStr) (hr : isRooted p = true) :
    2 ≤ (splitSlash p).length := by
  cases p with
  | nil => simp [isRooted] at hr
  | cons c rest =>
    have hc : c = '/' := by simpa [isRooted] using hr
    simp only [splitSlash, if_pos hc, List.length_cons]
    have := List.length_pos.2 (splitSlash_ne_nil rest)
    omega

theorem countNil_splitSlash_rooted (p : GoStr) (hr : isRooted p = true) :
    1 ≤ countNil (splitSlash p) := by
  cases p with
  | nil => simp [isRooted] at hr
  | cons c rest =>
    have hc : c = '/' := by simpa [isRooted] using hr
    simp only [splitSlash, if_pos hc, countNil]
    simp

/-- Lexical cleaning never lengthens a non-empty path. -/
theorem goClean_length_le (p : GoStr) (hp : p ≠ []) :
    (goClean p).length ≤ p.length := by
  have hple : 1 ≤ p.length := List.length_pos.2 hp
  have hsp : 1 ≤ (splitSlash p).length :=
    List.length_pos.2 (splitSlash_ne_nil p)
  have htl : totalLen (splitSlash p) = p.length := totalLen_splitSlash p
  have htS : totalLen (splitSlash p)
      = sumLen (splitSlash p) + ((splitSlash p).length - 1) := rfl
  obtain ⟨s1, s2⟩ := cleanPartsGo_sums (isRooted p) (splitSlash p) []
  rw [sumLen_nil] at s1
  simp only [List.length_nil] at s2
  have htO : totalLen (cleanPartsGo (isRooted p) (splitSlash p) [])
      = sumLen (cleanPartsGo (isRooted p) (splitSlash p) [])
        + ((cleanPartsGo (isRooted p) (splitSlash p) []).length - 1) := rfl
  unfold goClean
  rw [if_neg hp]
  simp only []
  by_cases hr : isRooted p
  · rw [if_pos hr]
    have hcn := countNil_splitSlash_rooted p hr
    have hsp2 := splitSlash_rooted_two p hr
    rw [List.length_cons, joinSlash_length]
    omega
  · rw [if_neg hr]
    by_cases hout : cleanPartsGo (isRooted p) (splitSlash p) [] = []
    · rw [if_pos hout]
      simpa using hple
    · rw [if_neg hout]
      have hop : 1 ≤ (cleanPartsGo (isRooted p) (splitSlash p) []).length :=
        List.length_pos.2 hout
      rw [joinSlash_length]
      omega

/-- `path.Join` of a segment list never exceeds the total scalar count the
segments denote. -/
theorem goPathJoin_length_le (elems : List GoStr) :
    (goPathJoin elems).length ≤ totalLen elems := by
  unfold goPathJoin
  cases hdw : elems.dropWhile (fun s => s.isEmpty) with
  | nil => simp
  | cons s rest =>
    show (goClean (joinSlash (s :: rest))).length ≤ totalLen elems
    have hhead : s.isEmpty = false := dropWhile_head_isEmpty_false elems s rest hdw
    have hsne : s ≠ [] := by simpa using hhead
    have hspos : 0 < s.length := List.length_pos.2 hsne
    have hjpos : 0 < (joinSlash (s :: rest)).length := by
      rw [joinSlash_length]
      simp only [totalLen, sumLen_cons]
      omega
    have hjne : joinSlash (s :: rest) ≠ [] := by
      intro he
      rw [he] at hjpos
      simp at hjpos
    calc (goClean (joinSlash (s :: rest))).length
        ≤ (joinSlash (s :: rest)).length := goClean_length_le _ hjne
      _ = totalLen (s :: rest) := joinSlash_length _
      _ ≤ totalLen elems := by
          rw [← hdw]
          exact totalLen_dropWhile_le elems

/-! ### ASCII preservation through normalization -/

theorem allAscii_mem {s : GoStr} (hs : allAscii s = true) {c : Char}
    (hc : c ∈ s) : c.utf8Size = 1 := by
  rw [allAscii, List.all_eq_true] at hs
  simpa using hs c hc

theorem mem_joinSlash :
    ∀ (parts : List GoStr) (c : Char), c ∈ joinSlash parts →
      c = '/' ∨ ∃ q ∈ parts, c ∈ q := by
  intro parts
  induction parts with
  | nil => intro c h; simp [joinSlash] at h
  | cons s rest ih =>
    intro c h
    cases rest with
    | nil =>
      right
      exact ⟨s, by simp, by simpa [joinSlash] using h⟩
    | cons t rest2 =>
      have h2 : c ∈ s ++ '/' :: joinSlash (t :: rest2) := h
      rw [List.mem_append, List.mem_cons] at h2
      rcases h2 with h2 | h2 | h2
      · right; exact ⟨s, by simp, h2⟩
      · left; exact h2
      · rcases ih c h2 with h3 | ⟨q, hq, hcq⟩
        · left; exact h3
        · right; exact ⟨q, by simp [hq], hcq⟩

theorem mem_joinSlash_of_mem :
    ∀ (parts : List GoStr) (q : GoStr) (c : Char),
      q ∈ parts → c ∈ q → c ∈ joinSlash parts := by
  intro parts
  induction parts with
  | nil => intro q c hq _; simp at hq
  | cons s rest ih =>
    intro q c hq hc
    cases rest with
    | nil =>
      simp only [List.mem_singleton] at hq
      subst hq
      simpa [joinSlash] using hc
    | cons t rest2 =>
      show c ∈ s ++ '/' :: joinSlash (t :: rest2)
      rw [List.mem_append, List.mem_cons]
      rcases List.mem_cons.1 hq with hq | hq
      · left; rw [← hq]; exact hc
      · right; right; exact ih q c hq hc

theorem dotdotAcc_mem (rooted : Bool) (acc : List GoStr) (q : GoStr)
    (h : q ∈ dotdotAcc rooted acc) : q = ['.', '.'] ∨ q ∈ acc := by
  cases acc with
  | nil =>
    simp only [dotdotAcc] at h
    by_cases hr : rooted
    · rw [if_pos hr] at h; simp at h
    · rw [if_neg hr] at h
      simp only [List.mem_singleton] at h
      exact Or.inl h
  | cons a acc2 =>
    simp only [dotdotAcc] at h
    by_cases ha : a = ['.', '.']
    · rw [if_pos ha] at h
      rcases List.mem_cons.1 h with h | h
      · exact Or.inl h
      · exact Or.inr h
    · rw [if_neg ha] at h
      exact Or.inr (List.mem_cons_of_mem a h)

theorem cleanPartsGo_mem (rooted : Bool) :
    ∀ (parts acc : List GoStr) (q : GoStr),
      q ∈ cleanPartsGo rooted parts acc →
        q = ['.', '.'] ∨ q ∈ parts ∨ q ∈ acc := by
  intro parts
  induction parts with
  | nil =>
    intro acc q h
    simp only [cleanPartsGo, List.mem_reverse] at h
    exact Or.inr (Or.inr h)
  | cons p rest ih =>
    intro acc q h
    simp only [cleanPartsGo] at h
    by_cases hskip : p = [] ∨ p = ['.']
    · rw [if_pos hskip] at h
      rcases ih acc q h with h | h | h
      · exact Or.inl h
      · exact Or.inr (Or.inl (List.mem_cons_of_mem p h))
      · exact Or.inr (Or.inr h)
    · rw [if_neg hskip] at h
      by_cases hdd : p = ['.', '.']
      · rw [if_pos hdd] at h
        rcases ih (dotdotAcc rooted acc) q h with h | h | h
        · exact Or.inl h
        · exact Or.inr (Or.inl (List.mem_cons_of_mem p h))
        · rcases dotdotAcc_mem rooted acc q h with h | h
          · exact Or.inl h
          · exact Or.inr (Or.inr h)
      · rw [if_neg hdd] at h
        rcases ih (p :: acc) q h with h | h | h
        · exact Or.inl h
        · exact Or.inr (Or.inl (List.mem_cons_of_mem p h))
        · rcases List.mem_cons.1 h with h | h
          · exact Or.inr (Or.inl (by rw [h]; exact List.mem_cons_self p rest))
          · exact Or.inr (Or.inr h)

theorem mem_of_mem_splitSlash (p : GoStr) (q : GoStr) (c : Char)
    (hq : q ∈ splitSlash p) (hc : c ∈ q) : c ∈ p := by
  have := mem_joinSlash_of_mem (splitSlash p) q c hq hc
  rwa [joinSlash_splitSlash] at this

/-- Every scalar of a cleaned path is a scalar of the input, a separator,
or a dot. -/
theorem mem_goClean (p : GoStr) (c : Char) (hc : c ∈ goClean p) :
    c ∈ p ∨ c = '/' ∨ c = '.' := by
  unfold goClean at hc
  by_cases hp : p = []
  · rw [if_pos hp] at hc
    simp only [List.mem_singleton] at hc
    exact Or.inr (Or.inr hc)
  · rw [if_neg hp] at hc
    simp only [] at hc
    have hmain : c ∈ joinSlash (cleanPartsGo (isRooted p) (splitSlash p) []) →
        c ∈ p ∨ c = '/' ∨ c = '.' := by
      intro hcj
      rcases mem_joinSlash _ c hcj with h | ⟨q, hq, hcq⟩
      · exact Or.inr (Or.inl h)
      · rcases cleanPartsGo_mem (isRooted p) (splitSlash p) [] q hq with h | h | h
        · subst h
          have hcd : c = '.' := by simpa using hcq
          exact Or.inr (Or.inr hcd)
        · exact Or.inl (mem_of_mem_splitSlash p q c h hcq)
        · simp at h
    by_cases hr : isRooted p
    · rw [if_pos hr] at hc
      rcases List.mem_cons.1 hc with h | h
      · exact Or.inr (Or.inl h)
      · exact hmain h
    · rw [if_neg hr] at hc
      by_cases hout : cleanPartsGo (isRooted p) (splitSlash p) [] = []
      · rw [if_pos hout] at hc
        simp only [List.mem_singleton] at hc
        exact Or.inr (Or.inr hc)
      · rw [if_neg hout] at hc
        exact hmain hc

theorem allAscii_goClean (p : GoStr) (hp : allAscii p = true) :
    allAscii (goClean p) = true := by
  rw [allAscii, List.all_eq_true]
  intro c hc
  rcases mem_goClean p c hc with h | h | h
  · simpa using allAscii_mem hp h
  · subst h; decide
  · subst h; decide

theorem allAscii_homeSub (home p : GoStr) (hp : allAscii p = true) :
    allAscii (homeSub home p) = true := by
  unfold homeSub
  split
  · rw [allAscii, List.all_eq_true]
    intro c hc
    rcases List.mem_cons.1 hc with h | h
    · subst h; decide
    · simpa using allAscii_mem hp (List.drop_subset home.length p h)
  · exact hp

theorem allAscii_goPathJoin (elems : List GoStr)
    (h : ∀ q ∈ elems, allAscii q = true) :
    allAscii (goPathJoin elems) = true := by
  unfold goPathJoin
  cases hdw : elems.dropWhile (fun s => s.isEmpty) with
  | nil => rfl
  | cons s rest =>
    show allAscii (goClean (joinSlash (s :: rest))) = true
    apply allAscii_goClean
    rw [allAscii, List.all_eq_true]
    intro c hc
    rcases mem_joinSlash (s :: rest) c hc with h2 | ⟨q, hq, hcq⟩
    · subst h2; decide
    · have hqe : q ∈ elems := by
        have hsub : s :: rest ⊆ elems := by
          rw [← hdw]
          exact (List.dropWhile_sublist _).subset
        exact hsub hq
      simpa using allAscii_mem (h q hqe) hcq

theorem allAscii_goAbs (cwd : Option GoStr) (p q : GoStr)
    (hp : allAscii p = true)
    (hcwd : ∀ w, cwd = some w → allAscii w = true)
    (h : goAbs cwd p = Except.ok q) : allAscii q = true := by
  unfold goAbs at h
  by_cases hr : isRooted p
  · rw [if_pos hr] at h
    cases h
    exact allAscii_goClean p hp
  · rw [if_neg hr] at h
    cases hc : cwd with
    | none => rw [hc] at h; cases h
    | some wd =>
      rw [hc] at h
      cases h
      apply allAscii_goPathJoin
      intro x hx
      rcases List.mem_cons.1 hx with hx | hx
      · rw [hx]; exact hcwd wd hc
      · simp only [List.mem_singleton] at hx
        rw [hx]; exact hp

theorem allAscii_splitSlash (p : GoStr) (hp : allAscii p = true) :
    ∀ q ∈ splitSlash p, allAscii q = true := by
  intro q hq
  rw [allAscii, List.all_eq_true]
  intro c hc
  simpa using allAscii_mem hp (mem_of_mem_splitSlash p q c hq hc)

/-! ### Claim C1, amended length bound -/

/-- Length and gain accounting across the whole segment pipeline of an
ASCII path: the segment count is preserved and the difference between
total segment scalars and remaining gain is invariant. -/
theorem runStages_totalLen (p : GoStr) (tl : Nat) (hpa : allAscii p = true) :
    (runStages p tl).1.length = (splitSlash p).length ∧
    (sumLen (runStages p tl).1 : Int) - (runStages p tl).2
      = (sumLen (splitSlash p) : Int) - ((p.length : Int) - (tl : Int)) := by
  rw [runStages_eq]
  constructor
  · rw [step6Go_length, step5Go_length, step4Go_length]
  · rw [step6Go_account, step5Go_account, step4Go_account]
    intro _ s hs
    exact Or.inl (allAscii_splitSlash p hpa s hs)

/-- Core of the amended C1 bound: for an ASCII normalized path, the output
of the post-normalization algorithm has at most `max targetLength 1`
scalars (both in the rejoin branch, by gain accounting plus the
non-lengthening of `path.Join`, and in the fallback branch, by the ASCII
behaviour of the middle truncation). -/
theorem prettifyCore_length_le (p0 : GoStr) (tl : Nat) (home : GoStr)
    (hp : allAscii p0 = true) :
    (prettifyCore p0 tl home).length ≤ max tl 1 := by
  have hpa : allAscii (homeSub home p0) = true := allAscii_homeSub home p0 hp
  unfold prettifyCore
  simp only []
  by_cases hg : 0 < (runStages (homeSub home p0) tl).2
  · rw [if_pos hg]
    rw [compressWithTruncator_ascii_length _ segTruncator tl hpa]
    split <;> omega
  · rw [if_neg hg]
    obtain ⟨hlen, hacc⟩ := runStages_totalLen (homeSub home p0) tl hpa
    have hjoin := goPathJoin_length_le (runStages (homeSub home p0) tl).1
    have htS : totalLen (splitSlash (homeSub home p0))
        = sumLen (splitSlash (homeSub home p0))
          + ((splitSlash (homeSub home p0)).length - 1) := rfl
    have htR : totalLen (runStages (homeSub home p0) tl).1
        = sumLen (runStages (homeSub home p0) tl).1
          + ((runStages (homeSub home p0) tl).1.length - 1) := rfl
    have htl2 : totalLen (splitSlash (homeSub home p0))
        = (homeSub home p0).length := totalLen_splitSlash _
    have hsp : 1 ≤ (splitSlash (homeSub home p0)).length :=
      List.length_pos.2 (splitSlash_ne_nil _)
    push_neg at hg
    omega

/-- C1 amended: for inputs whose scalars are all single-byte (the path and
any working-directory value used by normalization), every successful
`prettifyPath` output has scalar length at most `max targetLength 1`; at
`targetLength ≤ 1` the output can be exactly the bare truncator, with no
remnant of the original content (see the counterexample). -/
theorem c1_amended (cwd : Option GoStr) (home p0 : GoStr) (tl : Nat)
    (o : GoStr) (hp : allAscii p0 = true)
    (hcwd : ∀ w, cwd = some w → allAscii w = true)
    (h : prettifyPath cwd home p0 tl = Except.ok o) :
    o.length ≤ max tl 1 := by
  unfold prettifyPath at h
  cases habs : goAbs cwd (goClean p0) with
  | error e => rw [habs] at h; cases h
  | ok q =>
    rw [habs] at h
    injection h with h2
    rw [← h2]
    exact prettifyCore_length_le q tl home
      (allAscii_goAbs cwd (goClean p0) q (allAscii_goClean p0 hp) hcwd habs)

/-- Witness for `c1_amended`: `/ab` at target 1 yields `…`, of length
`1 = max 1 1`. -/
theorem c1_amended_witness : (['…'] : GoStr).length ≤ max 1 1 :=
  c1_amended (some ['/']) [] "/ab".toList 1 ['…'] (by decide)
    (fun w hw => by injection hw with h2; rw [← h2]; decide) (by rfl)

/-! ### Claim C3, amended round trip -/

theorem splitSlash_no_slash :
    ∀ (q : GoStr), '/' ∉ q → splitSlash q = [q] := by
  intro q
  induction q with
  | nil => intro _; rfl
  | cons c rest ih =>
    intro h
    have hc : c ≠ '/' := fun he => h (by rw [he]; exact List.mem_cons_self _ _)
    have hrest : '/' ∉ rest := fun hm => h (List.mem_cons_of_mem c hm)
    simp only [splitSlash]
    rw [if_neg (fun he => hc he), ih hrest]

theorem splitSlash_append_slash :
    ∀ (q : GoStr) (y : GoStr), '/' ∉ q →
      splitSlash (q ++ '/' :: y) = q :: splitSlash y := by
  intro q
  induction q with
  | nil => intro y _; simp [splitSlash]
  | cons c q2 ih =>
    intro y h
    have hc : c ≠ '/' := fun he => h (by rw [he]; exact List.mem_cons_self _ _)
    have hq2 : '/' ∉ q2 := fun hm => h (List.mem_cons_of_mem c hm)
    show splitSlash (c :: (q2 ++ '/' :: y)) = (c :: q2) :: splitSlash y
    simp only [splitSlash]
    rw [if_neg (fun he => hc he), ih y hq2]

theorem splitSlash_joinSlash :
    ∀ (parts : List GoStr), parts ≠ [] → (∀ q ∈ parts, '/' ∉ q) →
      splitSlash (joinSlash parts) = parts := by
  intro parts
  induction parts with
  | nil => intro h _; exact absurd rfl h
  | cons q rest ih =>
    intro _ hns
    cases rest with
    | nil =>
      show splitSlash q = [q]
      exact splitSlash_no_slash q (hns q (List.mem_cons_self q []))
    | cons t rest2 =>
      show splitSlash (q ++ '/' :: joinSlash (t :: rest2)) = q :: t :: rest2
      rw [splitSlash_append_slash q _ (hns q (List.mem_cons_self q _))]
      rw [ih (by simp) (fun x hx => hns x (List.mem_cons_of_mem q hx))]

/-- On parts that are non-empty, not `.`, and not `..`, the `path.Clean`
stack machine is a pure emitter. -/
theorem cleanPartsGo_normal (rooted : Bool) :
    ∀ (parts acc : List GoStr),
      (∀ q ∈ parts, q ≠ [] ∧ q ≠ ['.'] ∧ q ≠ ['.', '.']) →
      cleanPartsGo rooted parts acc = acc.reverse ++ parts := by
  intro parts
  induction parts with
  | nil => intro acc _; simp [cleanPartsGo]
  | cons p rest ih =>
    intro acc hn
    obtain ⟨h1, h2, h3⟩ := hn p (List.mem_cons_self p rest)
    simp only [cleanPartsGo]
    rw [if_neg (by tauto), if_neg h3]
    rw [ih (p :: acc) (fun x hx => hn x (List.mem_cons_of_mem p hx))]
    simp

theorem joinSlash_cons_eq (c : Char) (q2 : GoStr) (rest : List GoStr) :
    ∃ y, joinSlash ((c :: q2) :: rest) = c :: y := by
  cases rest with
  | nil => exact ⟨q2, rfl⟩
  | cons t rest2 => exact ⟨q2 ++ '/' :: joinSlash (t :: rest2), rfl⟩

/-- A rooted path whose parts are all normal is a fixed point of
`path.Clean`. -/
theorem goClean_rooted_normal (parts : List GoStr) (hne : parts ≠ [])
    (hn : ∀ q ∈ parts, q ≠ [] ∧ q ≠ ['.'] ∧ q ≠ ['.', '.'] ∧ '/' ∉ q) :
    goClean ('/' :: joinSlash parts) = '/' :: joinSlash parts := by
  unfold goClean
  rw [if_neg (by simp)]
  simp only []
  have hr : isRooted ('/' :: joinSlash parts) = true := by simp [isRooted]
  rw [if_pos hr]
  have hsplit : splitSlash ('/' :: joinSlash parts) = [] :: parts := by
    show (if '/' = '/' then [] :: splitSlash (joinSlash parts)
          else _) = [] :: parts
    rw [if_pos rfl, splitSlash_joinSlash parts hne (fun q hq => (hn q hq).2.2.2)]
  rw [hsplit, hr]
  show '/' :: joinSlash (cleanPartsGo true ([] :: parts) []) = _
  have : cleanPartsGo true ([] :: parts) [] = parts := by
    simp only [cleanPartsGo]
    rw [if_pos (Or.inl trivial)]
    rw [cleanPartsGo_normal true parts []
      (fun q hq => ⟨(hn q hq).1, (hn q hq).2.1, (hn q hq).2.2.1⟩)]
    simp
  rw [this]

/-- A relative path whose parts are all normal is a fixed point of
`path.Clean`, and is not rooted. -/
theorem goClean_rel_normal (parts : List GoStr) (hne : parts ≠ [])
    (hn : ∀ q ∈ parts, q ≠ [] ∧ q ≠ ['.'] ∧ q ≠ ['.', '.'] ∧ '/' ∉ q) :
    goClean (joinSlash parts) = joinSlash parts ∧
    isRooted (joinSlash parts) = false ∧
    joinSlash parts ≠ [] := by
  obtain ⟨q, rest, rfl⟩ : ∃ q rest, parts = q :: rest := by
    cases parts with
    | nil => exact absurd rfl hne
    | cons q rest => exact ⟨q, rest, rfl⟩
  obtain ⟨hq1, _, _, hq4⟩ := hn q (List.mem_cons_self q rest)
  obtain ⟨c, q2, rfl⟩ : ∃ c q2, q = c :: q2 := by
    cases q with
    | nil => exact absurd rfl hq1
    | cons c q2 => exact ⟨c, q2, rfl⟩
  have hc : c ≠ '/' := fun he =>
    hq4 (by rw [← he]; exact List.mem_cons_self _ _)
  obtain ⟨y, hy⟩ := joinSlash_cons_eq c q2 rest
  have hro : isRooted (joinSlash ((c :: q2) :: rest)) = false := by
    rw [hy]
    simp only [isRooted]
    exact beq_eq_false_iff_ne.mpr hc
  have hnil : joinSlash ((c :: q2) :: rest) ≠ [] := by
    rw [hy]; simp
  refine ⟨?_, hro, hnil⟩
  unfold goClean
  rw [if_neg hnil]
  simp only []
  rw [if_neg (by rw [hro]; simp)]
  rw [splitSlash_joinSlash _ (by simp) (fun x hx => (hn x hx).2.2.2)]
  rw [hro]
  rw [cleanPartsGo_normal false _ []
    (fun x hx => ⟨(hn x hx).1, (hn x hx).2.1, (hn x hx).2.2.1⟩)]
  simp only [List.reverse_nil, List.nil_append]
  rw [if_neg (by simp)]

theorem step4Go_noop (endI fuel : Nat) (segs : List GoStr) (g : Int)
    (hg : ¬ 0 < g) : step4Go endI fuel segs g = (segs, g) := by
  cases fuel with
  | zero => rfl
  | succ n =>
    simp only [step4Go]
    rw [if_neg hg]

theorem step5Go_noop (fuel : Nat) (segs : List GoStr) (g : Int)
    (hg : ¬ 0 < g) : step5Go fuel segs g = (segs, g) := by
  cases fuel with
  | zero => rfl
  | succ n =>
    cases segs with
    | nil => rfl
    | cons s rest =>
      simp only [step5Go]
      rw [if_neg hg]

theorem step6Go_noop (fuel : Nat) (segs : List GoStr) (g : Int)
    (hg : ¬ 0 < g) : step6Go fuel segs g = (segs, g) := by
  cases fuel with
  | zero => rfl
  | succ n =>
    cases segs with
    | nil => rfl
    | cons s rest =>
      simp only [step6Go]
      rw [if_neg hg]

theorem homeSub_nil (p : GoStr) : homeSub [] p = p := by
  unfold homeSub
  rw [if_neg (by simp)]

/-- With an empty `HOME` and a path within budget, the post-normalization
body reduces to the rejoin of the split. -/
theorem prettifyCore_noop (p : GoStr) (tl : Nat) (hlen : p.length ≤ tl) :
    prettifyCore p tl [] = goPathJoin (splitSlash p) := by
  have hg : ¬ (0 : Int) < (p.length : Int) - (tl : Int) := by omega
  have hrs : runStages p tl = (splitSlash p, (p.length : Int) - (tl : Int)) := by
    rw [runStages_eq]
    simp only [step4Go_noop _ _ _ _ hg, step5Go_noop _ _ _ hg,
      step6Go_noop _ _ _ hg]
  unfold prettifyCore
  rw [homeSub_nil]
  simp only [hrs]
  rw [if_neg hg]

theorem goClean_double_slash_normal (parts : List GoStr) (hne : parts ≠ [])
    (hn : ∀ q ∈ parts, q ≠ [] ∧ q ≠ ['.'] ∧ q ≠ ['.', '.'] ∧ '/' ∉ q) :
    goClean ('/' :: '/' :: joinSlash parts) = '/' :: joinSlash parts := by
  unfold goClean
  rw [if_neg (by simp)]
  simp only []
  have hr2 : isRooted ('/' :: '/' :: joinSlash parts) = true := by
    simp [isRooted]
  rw [if_pos hr2]
  have hsplit2 : splitSlash ('/' :: '/' :: joinSlash parts)
      = [] :: [] :: parts := by
    show (if '/' = '/' then [] :: splitSlash ('/' :: joinSlash parts)
          else _) = _
    rw [if_pos rfl]
    congr 1
    show (if '/' = '/' then [] :: splitSlash (joinSlash parts) else _) = _
    rw [if_pos rfl,
      splitSlash_joinSlash parts hne (fun q hq => (hn q hq).2.2.2)]
  rw [hsplit2, hr2]
  show '/' :: joinSlash (cleanPartsGo true ([] :: [] :: parts) []) = _
  have hclean : cleanPartsGo true ([] :: [] :: parts) [] = parts := by
    simp only [cleanPartsGo]
    rw [if_pos (Or.inl trivial), if_pos (Or.inl trivial)]
    rw [cleanPartsGo_normal true parts []
      (fun q hq => ⟨(hn q hq).1, (hn q hq).2.1, (hn q hq).2.2.1⟩)]
    simp
  rw [hclean]

/-- C3 amended: round-trip stability in the regime where both calls are
no-ops over the same string — home substitution does not apply (`HOME`
empty), the working directory is the root `/`, and the cleaned absolute
input (slash-free, non-empty, non-dot segments) is within budget.  The
first call drops the leading separator (see `c2_join_drops_root`), and the
second call maps that relative output back to the same string. -/
theorem c3_amended (parts : List GoStr) (tl : Nat)
    (hne : parts ≠ [])
    (hn : ∀ q ∈ parts, q ≠ [] ∧ q ≠ ['.'] ∧ q ≠ ['.', '.'] ∧ '/' ∉ q)
    (hlen : ('/' :: joinSlash parts).length ≤ tl) :
    prettifyPath (some ['/']) [] ('/' :: joinSlash parts) tl
      = Except.ok (joinSlash parts) ∧
    prettifyPath (some ['/']) [] (joinSlash parts) tl
      = Except.ok (joinSlash parts) := by
  obtain ⟨hrel, hro, hnil⟩ := goClean_rel_normal parts hne hn
  have habs := goClean_rooted_normal parts hne hn
  have hr : isRooted ('/' :: joinSlash parts) = true := by simp [isRooted]
  have hsplit : splitSlash ('/' :: joinSlash parts) = [] :: parts := by
    show (if '/' = '/' then [] :: splitSlash (joinSlash parts) else _) = _
    rw [if_pos rfl,
      splitSlash_joinSlash parts hne (fun q hq => (hn q hq).2.2.2)]
  have hjoin : goPathJoin ([] :: parts) = joinSlash parts := by
    obtain ⟨q, rest, hp⟩ : ∃ q rest, parts = q :: rest := by
      cases parts with
      | nil => exact absurd rfl hne
      | cons q rest => exact ⟨q, rest, rfl⟩
    subst hp
    have hq1 : q ≠ [] := (hn q (List.mem_cons_self _ _)).1
    have hqe : q.isEmpty = false := by
      cases q with
      | nil => exact absurd rfl hq1
      | cons a b => rfl
    unfold goPathJoin
    rw [List.dropWhile_cons,
      if_pos (show List.isEmpty ([] : GoStr) = true from rfl),
      List.dropWhile_cons, if_neg (by simp [hqe])]
    exact hrel
  constructor
  · unfold prettifyPath
    rw [habs]
    unfold goAbs
    rw [if_pos hr, habs]
    show Except.ok (prettifyCore ('/' :: joinSlash parts) tl []) = _
    rw [prettifyCore_noop _ _ hlen, hsplit, hjoin]
  · unfold prettifyPath
    rw [hrel]
    unfold goAbs
    rw [if_neg (by rw [hro]; simp)]
    show Except.ok (prettifyCore (goPathJoin [['/'], joinSlash parts]) tl [])
      = _
    have hpj : goPathJoin [['/'], joinSlash parts]
        = '/' :: joinSlash parts := by
      unfold goPathJoin
      rw [List.dropWhile_cons, if_neg (by simp)]
      show goClean (['/'] ++ '/' :: joinSlash parts) = _
      exact goClean_double_slash_normal parts hne hn
    rw [hpj, prettifyCore_noop _ _ hlen, hsplit, hjoin]

/-- Witness for `c3_amended` at `/a/bb` with target 60. -/
theorem c3_amended_witness :
    prettifyPath (some ['/']) [] "/a/bb".toList 60 = Except.ok ("a/bb".toList) ∧
    prettifyPath (some ['/']) [] "a/bb".toList 60 = Except.ok ("a/bb".toList) :=
  c3_amended ["a".toList, "bb".toList] 60 (by decide) (by decide) (by decide)
